import Mathlib

/- Verification development for the dirmap core (src/lib.rs): data model,
   file classification, tree construction, iterative size aggregation and
   the snapshot codec.  Rust strings and paths are embedded as byte
   sequences; the filesystem walk is embedded as an explicit list of
   entries; the aggregation loop is embedded as a fuel-indexed stack
   machine (the Rust loop has no structural termination argument). -/

/-- A Rust `String` (and any path rendered by `to_slash_lossy`), viewed as
    its sequence of bytes.  All comparisons in the source are byte-wise. -/
abbrev Str := List Nat

/-- Byte view of an ASCII string literal (for ASCII, code points coincide
    with the UTF-8 bytes Rust stores). -/
def str (s : String) : Str := s.toList.map Char.toNat

/-- `File` record (src/lib.rs lines 17-22): `typ: u8`, `name: String`,
    `size: u64`. -/
structure File where
  typ : Nat
  name : Str
  size : Nat
deriving DecidableEq, Repr

/-- `Dir` record (src/lib.rs lines 10-15): `size: u64`, `file: Vec<File>`,
    `children: Vec<String>`; `Default` gives `0, [], []`. -/
structure Dir where
  size : Nat := 0
  file : List File := []
  children : List Str := []
deriving DecidableEq, Repr

/-- `Dir::add_file` (src/lib.rs lines 25-28): `self.size += file.size;
    self.file.push(file)`. -/
def Dir.add_file (d : Dir) (f : File) : Dir :=
  { d with size := d.size + f.size, file := d.file ++ [f] }

/-- `Dir::remove_file` (src/lib.rs lines 30-33): retain the files whose
    name is not in the given list, then recompute `size` as the sum of the
    retained files' sizes. -/
def Dir.remove_file (d : Dir) (files : List Str) : Dir :=
  let kept := d.file.filter (fun f => ! files.contains f.name)
  { d with file := kept, size := (kept.map File.size).sum }

/-- `Dir::add_child` (src/lib.rs lines 35-37): `self.children.push(child)`. -/
def Dir.add_child (d : Dir) (child : Str) : Dir :=
  { d with children := d.children ++ [child] }

/-- `Dir::remove_child` (src/lib.rs lines 39-41). -/
def Dir.remove_child (d : Dir) (children : List Str) : Dir :=
  { d with children := d.children.filter (fun c => ! children.contains c) }

/-- A filesystem path: whether it is absolute, plus its components.
    `render` below is `Path::to_slash_lossy` (forward-slash separators). -/
structure RPath where
  absolute : Bool
  components : List Str
deriving DecidableEq, Repr

/-- `to_slash_lossy`: the path rendered with `/` separators (byte 47);
    an absolute path carries a leading `/`. -/
def RPath.render (p : RPath) : Str :=
  (if p.absolute then [47] else []) ++ List.intercalate [47] p.components

/-- `Path::parent`: `None` for a root or empty path, otherwise the path
    with its last component dropped (so the parent of the one-component
    relative path `a` is the empty path, as in Rust). -/
def RPath.parent (p : RPath) : Option RPath :=
  match p.components with
  | [] => none
  | _ => some ⟨p.absolute, p.components.dropLast⟩

/-- `path.as_os_str().is_empty()`: only the relative path with no
    components renders to the empty byte string. -/
def RPath.osEmpty (p : RPath) : Bool :=
  !p.absolute && p.components.isEmpty

/-- `Path::file_name`: the final component, unless it is `.` or `..`. -/
def RPath.pathFileName (p : RPath) : Option Str :=
  p.components.getLast?.bind
    (fun n => if n = str "." ∨ n = str ".." then none else some n)

/-- Extension of a bare file name: the part after the last dot (byte 46),
    none when there is no dot or when the dot is the leading byte
    (hidden files such as `.gitignore` have no extension in Rust). -/
def extOfName (name : Str) : Option Str :=
  let rev := name.reverse
  match rev.dropWhile (fun b => b ≠ 46) with
  | [] => none
  | [_] => none
  | _ => some (rev.takeWhile (fun b => b ≠ 46)).reverse

/-- `Path::extension`: extension of the file name of the path. -/
def RPath.extension (p : RPath) : Option Str :=
  p.pathFileName.bind extOfName

/-- `str::to_lowercase`, on the ASCII fragment (bytes 65-90 shift by 32;
    every extension in the fixed table is ASCII). -/
def toLowerByte (b : Nat) : Nat :=
  if 65 ≤ b ∧ b ≤ 90 then b + 32 else b

/-- Byte-wise ASCII lowercasing of a byte string. -/
def toLowerStr (s : Str) : Str := s.map toLowerByte

/-- `File::recognize_file_type` (src/lib.rs lines 58-70): look at the
    extension, lower-cased, against the fixed table; anything else,
    including a missing extension, is `5` (OTHER). -/
def File.recognize_file_type (file : RPath) : Nat :=
  match file.extension with
  | some e =>
    let l := toLowerStr e
    if l = str "png" then 0
    else if l = str "jpg" ∨ l = str "jpeg" then 1
    else if l = str "webp" then 2
    else if l = str "svg" then 3
    else if l = str "gif" then 4
    else 5
  | none => 5

/-- Structured rendering of the `anyhow!` errors of src/lib.rs:
    `父目录不存在: {parent}` (missing parent during the build),
    `无法获取元数据: {name}` (metadata failure building a `File`), and
    `目录不存在: {path}` (missing directory during aggregation). -/
inductive DError where
  | missingParent (parent : Str)
  | metadata (name : Str)
  | missingDir (path : Str)
deriving DecidableEq, Repr

/-- Kind of a walk entry, as exposed by `entry.file_type()`. -/
inductive FType where
  | dir
  | file
  | other
deriving DecidableEq, Repr

/-- One `walkdir` entry of the pre-enumerated walk: its path, its file
    type, and the result of reading its metadata size (`none` models a
    metadata read failure for a file entry). -/
structure Entry where
  path : RPath
  ftype : FType
  msize : Option Nat
deriving DecidableEq, Repr

/-- `DirEntry::file_name`: the last path component, or the full rendered
    path when there is none. -/
def Entry.file_name (e : Entry) : Str :=
  (e.path.components.getLast?).getD e.path.render

/-- `File::new` (src/lib.rs lines 45-56): name from the entry, type from
    the path, size from the metadata; a metadata failure is an error. -/
def File.new (e : Entry) : Except DError File :=
  match e.msize with
  | none => .error (.metadata e.file_name)
  | some sz =>
    .ok { typ := File.recognize_file_type e.path, name := e.file_name, size := sz }

/-- The snapshot mapping `HashMap<String, Dir>`, embedded as an
    association list with pairwise distinct keys (insertion order). -/
abbrev Snapshot := List (Str × Dir)

deriving instance DecidableEq for Except

/-- Lookup in an association list (the `HashMap` `get` of the source;
    keys inserted by the source are pairwise distinct, so first-match
    lookup is the map lookup). -/
def alookup {α : Type} : List (Str × α) → Str → Option α
  | [], _ => none
  | kv :: m, k => if kv.1 = k then some kv.2 else alookup m k

/-- `HashMap::get_mut` followed by a mutation: rewrite the value stored at
    an existing key, leaving every other binding unchanged. -/
def aupdate (m : Snapshot) (k : Str) (f : Dir → Dir) : Snapshot :=
  m.map (fun kv => if kv.1 = k then (kv.1, f kv.2) else kv)

/-- `dirs.entry(path).or_insert_with(Dir::default)`: insert a fresh
    default record when the key is absent. -/
def dirInsert (m : Snapshot) (k : Str) : Snapshot :=
  if (alookup m k).isSome then m else m ++ [(k, ⟨0, [], []⟩)]

/-- One Phase A step of `build_tree`: a directory entry registers its
    rendered path. -/
def stepA (m : Snapshot) (e : Entry) : Snapshot :=
  if e.ftype = .dir then dirInsert m e.path.render else m

/-- Phase A of `build_tree` (src/lib.rs lines 98-105): for every directory
    entry, ensure a record keyed by its rendered path. -/
def phaseA (entries : List Entry) : Snapshot :=
  entries.foldl stepA []

/-- One Phase B step of `build_tree` (src/lib.rs lines 109-149), acting on
    the (mapping, first recorded error) state: skip once an error is
    recorded; a file is classified and appended to its parent's record
    (missing parent, or a metadata failure, records an error); a directory
    whose parent path is non-empty is appended to its parent's `children`
    (missing parent records an error); other entries are ignored. -/
def stepB (st : Snapshot × Option DError) (e : Entry) : Snapshot × Option DError :=
  match st.2 with
  | some _ => st
  | none =>
    match e.ftype with
    | .file =>
      match e.path.parent with
      | none => st
      | some par =>
        let parent_path := par.render
        match File.new e with
        | .ok f =>
          if (alookup st.1 parent_path).isSome then
            (aupdate st.1 parent_path (fun d => d.add_file f), none)
          else (st.1, some (.missingParent parent_path))
        | .error er => (st.1, some er)
    | .dir =>
      match e.path.parent with
      | none => st
      | some par =>
        if par.osEmpty then st
        else
          let parent_path := par.render
          if (alookup st.1 parent_path).isSome then
            (aupdate st.1 parent_path (fun d => d.add_child e.path.render), none)
          else (st.1, some (.missingParent parent_path))
    | .other => st

/-- `build_tree` with the two phases' scheduling orders made explicit:
    Phase A runs over `esA`, Phase B over `esB` (in the source both are
    the same pre-enumerated entry list; a parallel schedule is any
    permutation of each). -/
def buildTree2 (esA esB : List Entry) : Except DError Snapshot :=
  match esB.foldl stepB (phaseA esA, none) with
  | (_, some e) => .error e
  | (m, none) => .ok m

/-- `build_tree` (src/lib.rs lines 91-156) on a pre-enumerated walk:
    Phase A then Phase B over the same entry list, returning the first
    recorded error if any. -/
def build_tree (entries : List Entry) : Except DError Snapshot :=
  buildTree2 entries entries

/-- The two-tag stack item of `calc_size` (src/lib.rs lines 162-165). -/
inductive StackItem where
  | Process (p : Str)
  | Calculate (p : Str)
deriving DecidableEq, Repr

/-- The running `sizes` map of `calc_size`. -/
abbrev SizeMap := List (Str × Nat)

/-- `sizes.insert(path, size)`: replace the binding when present,
    otherwise append it. -/
def supsert (m : SizeMap) (k : Str) (v : Nat) : SizeMap :=
  if (alookup m k).isSome then
    m.map (fun kv => if kv.1 = k then (k, v) else kv)
  else m ++ [(k, v)]

/-- The `size += sizes.get(child)?` summation loop of the `Calculate` arm
    (src/lib.rs lines 191-195): `none` when some child has no recorded
    size yet. -/
def childSum (sizes : SizeMap) : List Str → Option Nat
  | [] => some 0
  | c :: cs =>
    match alookup sizes c with
    | none => none
    | some v => (childSum sizes cs).map (fun s => v + s)

/-- One iteration of the `calc_size` loop (src/lib.rs lines 169-200) on a
    popped item: `Process` looks the directory up (error when absent),
    pushes `Calculate` for it and then `Process` for each child (so the
    last child ends on top); `Calculate` looks the directory up, sums its
    own size with the recorded sizes of its children (error when one is
    missing — the message names the directory, as in the source), and
    records the total. -/
def calcStep (dirs : Snapshot) :
    StackItem → List StackItem → SizeMap →
    Except DError (List StackItem × SizeMap)
  | .Process p, rest, sizes =>
    match alookup dirs p with
    | none => .error (.missingDir p)
    | some d =>
      .ok ((d.children.map StackItem.Process).reverse ++ (.Calculate p :: rest), sizes)
  | .Calculate p, rest, sizes =>
    match alookup dirs p with
    | none => .error (.missingDir p)
    | some d =>
      match childSum sizes d.children with
      | none => .error (.missingDir p)
      | some s => .ok (rest, supsert sizes p (d.size + s))

/-- The `while let Some(item) = stack.pop()` loop of `calc_size`, indexed
    by fuel: `none` means the loop has not finished within the given
    number of iterations (the Rust loop has no termination guarantee). -/
def calcRun (dirs : Snapshot) : Nat → List StackItem → SizeMap → Option (Except DError SizeMap)
  | 0, _, _ => none
  | _ + 1, [], sizes => some (.ok sizes)
  | f + 1, it :: rest, sizes =>
    match calcStep dirs it rest sizes with
    | .error e => some (.error e)
    | .ok (st, sz) => calcRun dirs f st sz

/-- `calc_size` (src/lib.rs lines 158-203): run the loop from the stack
    `[Process(start_path)]` and an empty sizes map. -/
def calc_size (dirs : Snapshot) (start_path : Str) (fuel : Nat) :
    Option (Except DError SizeMap) :=
  calcRun dirs fuel [.Process start_path] []

/-- Reachability along `children` references: `Reach dirs p q` holds when
    `q` is in the subtree of references rooted at `p`. -/
inductive Reach (dirs : Snapshot) : Str → Str → Prop where
  | refl (p : Str) : Reach dirs p p
  | tail {p q c : Str} {d : Dir} :
      Reach dirs p q → alookup dirs q = some d → c ∈ d.children → Reach dirs p c

/-- Recursive subtree size, indexed by a depth bound: own size plus the
    bounded subtree sizes of the children (a missing directory counts 0;
    under the tree hypotheses the bound is irrelevant past the rank). -/
def aggBound (dirs : Snapshot) : Nat → Str → Nat
  | 0, p =>
    match alookup dirs p with
    | none => 0
    | some d => d.size
  | f + 1, p =>
    match alookup dirs p with
    | none => 0
    | some d => d.size + (d.children.map (aggBound dirs f)).sum

/- ---------------------------------------------------------------------
   The codec (src/lib.rs lines 73-89).  `bincode` with `config::standard()`
   writes little-endian bytes with variable-width integer encoding:
   an unsigned integer below 251 is a single byte, otherwise a marker byte
   251/252/253 followed by 2/4/8 little-endian bytes; `u8` is one raw
   byte; strings and sequences are length-prefixed; a map is its length
   followed by its (key, value) pairs.  `zstd` is an external crate; the
   spec requires of it only that it is a general-purpose lossless byte
   compressor.
   --------------------------------------------------------------------- -/

/-- `k` little-endian base-256 digits of `n`. -/
def leBytes : Nat → Nat → List Nat
  | 0, _ => []
  | k + 1, n => n % 256 :: leBytes k (n / 256)

/-- Read `k` little-endian bytes off the front of a byte stream. -/
def readLE : Nat → List Nat → Option (Nat × List Nat)
  | 0, l => some (0, l)
  | _ + 1, [] => none
  | k + 1, b :: l => (readLE k l).map (fun vr => (b + 256 * vr.1, vr.2))

/-- bincode standard varint encoding of a `u64` (or `usize`) value. -/
def encodeU64 (n : Nat) : List Nat :=
  if n < 251 then [n]
  else if n < 2 ^ 16 then 251 :: leBytes 2 n
  else if n < 2 ^ 32 then 252 :: leBytes 4 n
  else 253 :: leBytes 8 n

/-- bincode standard varint decoding of a `u64` value. -/
def decodeU64 : List Nat → Option (Nat × List Nat)
  | [] => none
  | b :: l =>
    if b < 251 then some (b, l)
    else if b = 251 then readLE 2 l
    else if b = 252 then readLE 4 l
    else if b = 253 then readLE 8 l
    else none

/-- bincode encoding of a string: varint byte length, then the bytes. -/
def encodeStr (s : Str) : List Nat :=
  encodeU64 s.length ++ s

/-- bincode decoding of a string. -/
def decodeStr (l : List Nat) : Option (Str × List Nat) :=
  (decodeU64 l).bind fun nr =>
    if nr.1 ≤ nr.2.length then some (nr.2.take nr.1, nr.2.drop nr.1) else none

/-- bincode encoding of a sequence: varint element count, then the
    concatenated element encodings. -/
def encodeList {α : Type} (enc : α → List Nat) (l : List α) : List Nat :=
  encodeU64 l.length ++ (l.map enc).flatten

/-- Decode `n` consecutive elements. -/
def decodeCount {α : Type} (dec : List Nat → Option (α × List Nat)) :
    Nat → List Nat → Option (List α × List Nat)
  | 0, l => some ([], l)
  | n + 1, l =>
    (dec l).bind fun ar =>
      (decodeCount dec n ar.2).bind fun lr => some (ar.1 :: lr.1, lr.2)

/-- bincode decoding of a sequence. -/
def decodeList {α : Type} (dec : List Nat → Option (α × List Nat))
    (l : List Nat) : Option (List α × List Nat) :=
  (decodeU64 l).bind fun nr => decodeCount dec nr.1 nr.2

/-- bincode encoding of a `File`: the `u8` type byte, the name, the size
    (derived field order of src/lib.rs lines 17-22). -/
def encodeFile (f : File) : List Nat :=
  f.typ :: encodeStr f.name ++ encodeU64 f.size

/-- bincode decoding of a `File`. -/
def decodeFile : List Nat → Option (File × List Nat)
  | [] => none
  | t :: l =>
    (decodeStr l).bind fun nr =>
      (decodeU64 nr.2).bind fun sr => some (⟨t, nr.1, sr.1⟩, sr.2)

/-- bincode encoding of a `Dir`: size, files, children (derived field
    order of src/lib.rs lines 10-15). -/
def encodeDir (d : Dir) : List Nat :=
  encodeU64 d.size ++ encodeList encodeFile d.file ++ encodeList encodeStr d.children

/-- bincode decoding of a `Dir`. -/
def decodeDir (l : List Nat) : Option (Dir × List Nat) :=
  (decodeU64 l).bind fun szr =>
    (decodeList decodeFile szr.2).bind fun fr =>
      (decodeList decodeStr fr.2).bind fun cr => some (⟨szr.1, fr.1, cr.1⟩, cr.2)

/-- bincode encoding of one (key, record) pair of the mapping. -/
def encodePair (kv : Str × Dir) : List Nat :=
  encodeStr kv.1 ++ encodeDir kv.2

/-- bincode decoding of one (key, record) pair. -/
def decodePair (l : List Nat) : Option ((Str × Dir) × List Nat) :=
  (decodeStr l).bind fun kr =>
    (decodeDir kr.2).bind fun dr => some ((kr.1, dr.1), dr.2)

/-- `bincode::encode_to_vec(&tree, config::standard())`: the mapping as
    its entry count followed by its (key, record) pairs in iteration
    order. -/
def bincodeEncode (tree : Snapshot) : List Nat :=
  encodeList encodePair tree

/-- `bincode::decode_from_slice(..)`: the decoded mapping together with
    the unread remainder of the input. -/
def bincodeDecode (l : List Nat) : Option (Snapshot × List Nat) :=
  decodeList decodePair l

/-- Modelled from the spec: `zstd::encode_all(data, 3)` — the external
    `zstd` crate is not part of this repository; the spec requires only a
    general-purpose lossless byte compressor, so the compressed stream is
    modelled as the byte stream itself (the lossless transform). -/
def zstd_encode_all (data : List Nat) : List Nat := data

/-- Modelled from the spec: `zstd::decode_all(data)` — the inverse of the
    lossless transform above; on a stream produced by `zstd_encode_all`
    it always succeeds. -/
def zstd_decode_all (data : List Nat) : Option (List Nat) := some data

/-- The codec tail of `map` (src/lib.rs lines 81-82): serialize the
    (already aggregated) mapping with bincode, then compress it. -/
def map_encode (tree : Snapshot) : List Nat :=
  zstd_encode_all (bincodeEncode tree)

/-- `unmap` (src/lib.rs lines 85-89): decompress, then decode the mapping
    (the byte count consumed by bincode is dropped, as in the source). -/
def unmap (data : List Nat) : Option Snapshot :=
  (zstd_decode_all data).bind fun de =>
    (bincodeDecode de).bind fun dr => some dr.1

/-- Wellformedness of a `File` as a Rust value: `typ` is a `u8`, `size`
    a `u64`, and the name a real vector (length below `2^64`). -/
def WFFile (f : File) : Prop :=
  f.typ < 256 ∧ f.size < 2 ^ 64 ∧ f.name.length < 2 ^ 64

/-- Wellformedness of a `Dir` as a Rust value. -/
def WFDir (d : Dir) : Prop :=
  d.size < 2 ^ 64 ∧ d.file.length < 2 ^ 64 ∧ d.children.length < 2 ^ 64 ∧
    (∀ f ∈ d.file, WFFile f) ∧ ∀ c ∈ d.children, c.length < 2 ^ 64

/-- Wellformedness of a snapshot as a Rust value. -/
def WFSnapshot (tree : Snapshot) : Prop :=
  tree.length < 2 ^ 64 ∧ ∀ kv ∈ tree, kv.1.length < 2 ^ 64 ∧ WFDir kv.2

instance (f : File) : Decidable (WFFile f) := by
  unfold WFFile; infer_instance

instance (d : Dir) : Decidable (WFDir d) := by
  unfold WFDir; infer_instance

instance (t : Snapshot) : Decidable (WFSnapshot t) := by
  unfold WFSnapshot; infer_instance

/-- `aggBound` at the depth prescribed by a rank function: the reference
    value of the recursive subtree size under the tree hypotheses. -/
def aggVal (dirs : Snapshot) (rank : Str → Nat) (p : Str) : Nat :=
  aggBound dirs (rank p) p

/-- Invariant of the running `sizes` map of `calc_size`: every recorded
    binding is a reachable directory carrying its reference subtree
    size. -/
def GoodSizes (dirs : Snapshot) (start : Str) (rank : Str → Nat) (s : SizeMap) : Prop :=
  ∀ q v, alookup s q = some v → Reach dirs start q ∧ v = aggVal dirs rank q

/-- The rendered paths of the directory entries of a walk: exactly the
    keys Phase A inserts. -/
def dirRenders (es : List Entry) : List Str :=
  es.filterMap (fun e => if e.ftype = .dir then some e.path.render else none)

/-- The files a Phase B pass appends to the record keyed `k`, in entry
    order. -/
def filesOf (k : Str) (es : List Entry) : List File :=
  es.filterMap (fun e =>
    match e.ftype, e.path.parent, File.new e with
    | .file, some par, .ok f => if par.render = k then some f else none
    | _, _, _ => none)

/-- The child links a Phase B pass appends to the record keyed `k`, in
    entry order. -/
def childrenOf (k : Str) (es : List Entry) : List Str :=
  es.filterMap (fun e =>
    match e.ftype, e.path.parent with
    | .dir, some par =>
      if par.osEmpty then none
      else if par.render = k then some e.path.render else none
    | _, _ => none)

/-- A walk entry that can be processed without error, given the key set
    `keys` of the mapping: a file has readable metadata and a registered
    parent; a directory has an empty or registered parent. -/
def entryOK (keys : List Str) (e : Entry) : Bool :=
  match e.ftype, e.path.parent with
  | .file, some par => e.msize.isSome && keys.contains par.render
  | .dir, some par => par.osEmpty || keys.contains par.render
  | _, _ => true

/-- A walk of a readable, fully registered tree: every entry can be
    processed against the keys Phase A produces. -/
def WalkWF (es : List Entry) : Bool :=
  es.all (entryOK (dirRenders es))

/-- The synthetic tree of the spec: root→{A, B}, A holding one file of
    size 100, B holding one file of size 50 and the child C, C holding
    one file of size 25; `size` fields are as `build_tree` leaves them
    (immediate files only). -/
def sampleTree : Snapshot :=
  [(str "root", ⟨0, [], [str "a", str "b"]⟩),
   (str "a", ⟨100, [⟨5, str "fa", 100⟩], []⟩),
   (str "b", ⟨50, [⟨5, str "fb", 50⟩], [str "c"]⟩),
   (str "c", ⟨25, [⟨5, str "fc", 25⟩], []⟩)]

/-- A snapshot holding a single directory with no files and no children. -/
def emptyDirSnap : Snapshot := [(str "e", ⟨0, [], []⟩)]

/-- A snapshot whose only directory lists itself as a child: the smallest
    child-reference cycle. -/
def cycSnap : Snapshot := [(str "a", ⟨0, [], [str "a"]⟩)]

/-- A snapshot whose only directory lists a dangling child `b` and itself:
    the cycle is entered before the dangling reference is examined. -/
def cycMissingSnap : Snapshot := [(str "a", ⟨0, [], [str "b", str "a"]⟩)]

/-- The walk of an (empty) directory at the two-component start path
    `a/b`: the single entry is the root directory itself, whose parent
    `a` lies outside the scanned tree. -/
def walkAB : List Entry := [⟨⟨false, [str "a", str "b"]⟩, .dir, none⟩]

/- ---------------------------------------------------------------------
   Theorems.
   --------------------------------------------------------------------- -/

/-- C7 — File classification: the fixed-table examples (`photo.JPG` is
    JPEG, `icon.svg` is SVG, `archive.tar.gz` and an extensionless file
    are OTHER), a missing extension is OTHER, the classification is a
    function of the extension alone, and it is case-insensitive in the
    extension. -/
theorem recognize_file_type_spec :
    File.recognize_file_type ⟨false, [str "photo.JPG"]⟩ = 1 ∧
    File.recognize_file_type ⟨false, [str "icon.svg"]⟩ = 3 ∧
    File.recognize_file_type ⟨false, [str "archive.tar.gz"]⟩ = 5 ∧
    File.recognize_file_type ⟨false, [str "README"]⟩ = 5 ∧
    (∀ p : RPath, p.extension = none → File.recognize_file_type p = 5) ∧
    (∀ p q : RPath, p.extension = q.extension →
      File.recognize_file_type p = File.recognize_file_type q) ∧
    (∀ p q : RPath, ∀ ep eq_ : Str, p.extension = some ep →
      q.extension = some eq_ → toLowerStr ep = toLowerStr eq_ →
      File.recognize_file_type p = File.recognize_file_type q) := by
  refine ⟨by decide, by decide, by decide, by decide, ?_, ?_, ?_⟩
  · intro p h
    simp [File.recognize_file_type, h]
  · intro p q h
    unfold File.recognize_file_type
    rw [h]
  · intro p q ep eq_ hp hq hlow
    simp only [File.recognize_file_type, hp, hq, hlow]

/-- Witness for C7: the case-insensitivity clause applied to concrete
    paths with extensions `PnG` and `png`. -/
theorem recognize_file_type_spec_witness :
    File.recognize_file_type ⟨false, [str "b.PnG"]⟩ =
      File.recognize_file_type ⟨false, [str "c.png"]⟩ :=
  recognize_file_type_spec.2.2.2.2.2.2 ⟨false, [str "b.PnG"]⟩ ⟨false, [str "c.png"]⟩
    (str "PnG") (str "png") (by decide) (by decide) (by decide)

/-- C10 — The `Dir` mutators versus the size/files equality: `add_file`
    preserves `size = Σ file sizes` (it adds exactly the new file's size
    while appending the file), `remove_file` re-establishes the equality
    unconditionally, and neither touches `children`. -/
theorem dir_mutators_spec (d : Dir) (f : File) (names : List Str) :
    (d.size = (d.file.map File.size).sum →
      (d.add_file f).size = ((d.add_file f).file.map File.size).sum) ∧
    (d.add_file f).size = d.size + f.size ∧
    (d.add_file f).file = d.file ++ [f] ∧
    (d.add_file f).children = d.children ∧
    (d.remove_file names).size = ((d.remove_file names).file.map File.size).sum ∧
    (d.remove_file names).children = d.children := by
  refine ⟨?_, rfl, rfl, rfl, rfl, rfl⟩
  intro h
  simp [Dir.add_file, h]

/-- Witness for C10: `add_file` on a concrete record satisfying the
    equality. -/
theorem dir_mutators_spec_witness :
    ((⟨3, [⟨5, str "g", 3⟩], []⟩ : Dir).add_file ⟨0, str "f.png", 7⟩).size =
      (((⟨3, [⟨5, str "g", 3⟩], []⟩ : Dir).add_file ⟨0, str "f.png", 7⟩).file.map
        File.size).sum :=
  (dir_mutators_spec ⟨3, [⟨5, str "g", 3⟩], []⟩ ⟨0, str "f.png", 7⟩ []).1 (by decide)

/-- C4 — Root parent handling: on the walk of a readable tree rooted at
    the two-component start path `a/b` (the root directory is its only
    entry), `build_tree` reports the false-positive missing-parent error
    for the root's parent `a` instead of treating the root as having no
    parent and returning `Ok`. -/
theorem build_tree_root_parent_error :
    build_tree walkAB = .error (.missingParent (str "a")) := by decide

/-- If `a`'s record lists `a` itself as its last child, popping
    `Process a` always puts `Process a` back on top of the stack: the
    aggregation loop never finishes, at any fuel. -/
theorem calcRun_last_child_self (dirs : Snapshot) (a : Str) (d : Dir)
    (hd : alookup dirs a = some d) (hlast : d.children.getLast? = some a) :
    ∀ f rest s, calcRun dirs f (.Process a :: rest) s = none := by
  intro f
  induction f with
  | zero => intro rest s; rfl
  | succ f ih =>
    intro rest s
    obtain ⟨t, ht⟩ : ∃ t, (d.children.map StackItem.Process).reverse =
        .Process a :: t := by
      have h1 : d.children.reverse.head? = some a := by
        rw [← List.getLast?_eq_head?_reverse]
        exact hlast
      cases hr : d.children.reverse with
      | nil => rw [hr] at h1; cases h1
      | cons x xs =>
        rw [hr] at h1
        have hx : x = a := by simpa using h1
        subst hx
        refine ⟨xs.map StackItem.Process, ?_⟩
        rw [← List.map_reverse, hr]
        rfl
    show calcRun dirs (f + 1) (.Process a :: rest) s = none
    rw [calcRun]
    simp only [calcStep, hd, ht]
    rw [List.cons_append]
    exact ih _ _

/-- C3 — what the code does on a cyclic snapshot: on the self-loop
    snapshot, `calc_size` never finishes within any number of loop
    iterations — it neither returns an error nor terminates, and the
    stack grows without bound instead of staying below the number of
    directories. -/
theorem calc_size_cycle_loops :
    ∀ fuel, calc_size cycSnap (str "a") fuel = none := by
  intro fuel
  exact calcRun_last_child_self cycSnap (str "a") ⟨0, [], [str "a"]⟩
    (by decide) (by decide) fuel [] []

/-- Reading back `k` little-endian bytes recovers the value modulo
    `256^k` and leaves the remainder of the stream. -/
theorem readLE_leBytes (k : Nat) : ∀ (n : Nat) (rest : List Nat),
    readLE k (leBytes k n ++ rest) = some (n % 256 ^ k, rest) := by
  induction k with
  | zero => intro n rest; simp [readLE, leBytes, Nat.mod_one]
  | succ k ih =>
    intro n rest
    rw [leBytes, List.cons_append, readLE, ih (n / 256)]
    simp only [Option.map_some']
    rw [Nat.pow_succ', Nat.mod_mul]

/-- Varint round trip for a `u64` value. -/
theorem decodeU64_encodeU64 (n : Nat) (h : n < 2 ^ 64) (rest : List Nat) :
    decodeU64 (encodeU64 n ++ rest) = some (n, rest) := by
  have hp16 : (256 : Nat) ^ 2 = 2 ^ 16 := by norm_num
  have hp32 : (256 : Nat) ^ 4 = 2 ^ 32 := by norm_num
  have hp64 : (256 : Nat) ^ 8 = 2 ^ 64 := by norm_num
  unfold encodeU64
  by_cases h1 : n < 251
  · rw [if_pos h1, List.singleton_append, decodeU64, if_pos h1]
  · by_cases h2 : n < 2 ^ 16
    · rw [if_neg h1, if_pos h2, List.cons_append, decodeU64,
        if_neg (by norm_num), if_pos rfl, readLE_leBytes, hp16,
        Nat.mod_eq_of_lt h2]
    · by_cases h3 : n < 2 ^ 32
      · rw [if_neg h1, if_neg h2, if_pos h3, List.cons_append, decodeU64,
          if_neg (by norm_num), if_neg (by norm_num), if_pos rfl,
          readLE_leBytes, hp32, Nat.mod_eq_of_lt h3]
      · rw [if_neg h1, if_neg h2, if_neg h3, List.cons_append, decodeU64,
          if_neg (by norm_num), if_neg (by norm_num), if_neg (by norm_num),
          if_pos rfl, readLE_leBytes, hp64, Nat.mod_eq_of_lt h]

/-- String round trip. -/
theorem decodeStr_encodeStr (s : Str) (h : s.length < 2 ^ 64) (rest : List Nat) :
    decodeStr (encodeStr s ++ rest) = some (s, rest) := by
  unfold encodeStr decodeStr
  rw [List.append_assoc, decodeU64_encodeU64 _ h, Option.some_bind]
  rw [if_pos (by rw [List.length_append]; exact Nat.le_add_right _ _)]
  rw [List.take_left, List.drop_left]

/-- Sequence round trip, element by element. -/
theorem decodeCount_encode {α : Type} (enc : α → List Nat)
    (dec : List Nat → Option (α × List Nat)) (l : List α)
    (hrt : ∀ a ∈ l, ∀ rest, dec (enc a ++ rest) = some (a, rest))
    (rest : List Nat) :
    decodeCount dec l.length ((l.map enc).flatten ++ rest) = some (l, rest) := by
  induction l with
  | nil => simp [decodeCount]
  | cons a l ih =>
    simp only [List.map_cons, List.flatten_cons, List.length_cons,
      List.append_assoc, decodeCount, hrt a (List.mem_cons_self a l),
      Option.some_bind]
    rw [ih (fun x hx r => hrt x (List.mem_cons_of_mem a hx) r)]
    simp only [Option.some_bind]

/-- Length-prefixed sequence round trip. -/
theorem decodeList_encodeList {α : Type} (enc : α → List Nat)
    (dec : List Nat → Option (α × List Nat)) (l : List α)
    (hlen : l.length < 2 ^ 64)
    (hrt : ∀ a ∈ l, ∀ rest, dec (enc a ++ rest) = some (a, rest))
    (rest : List Nat) :
    decodeList dec (encodeList enc l ++ rest) = some (l, rest) := by
  unfold encodeList decodeList
  rw [List.append_assoc, decodeU64_encodeU64 _ hlen, Option.some_bind]
  exact decodeCount_encode enc dec l hrt rest

/-- `File` record round trip. -/
theorem decodeFile_encodeFile (f : File) (h : WFFile f) (rest : List Nat) :
    decodeFile (encodeFile f ++ rest) = some (f, rest) := by
  obtain ⟨h1, h2, h3⟩ := h
  unfold encodeFile
  simp only [List.cons_append, List.append_assoc]
  rw [decodeFile]
  simp only [decodeStr_encodeStr _ h3, Option.some_bind,
    decodeU64_encodeU64 _ h2]

/-- `Dir` record round trip. -/
theorem decodeDir_encodeDir (d : Dir) (h : WFDir d) (rest : List Nat) :
    decodeDir (encodeDir d ++ rest) = some (d, rest) := by
  obtain ⟨h1, h2, h3, h4, h5⟩ := h
  unfold encodeDir decodeDir
  simp only [List.append_assoc]
  simp only [decodeU64_encodeU64 _ h1, Option.some_bind,
    decodeList_encodeList _ _ _ h2
      (fun f hf r => decodeFile_encodeFile f (h4 f hf) r),
    decodeList_encodeList _ _ _ h3
      (fun c hc r => decodeStr_encodeStr c (h5 c hc) r)]

/-- (key, record) pair round trip. -/
theorem decodePair_encodePair (kv : Str × Dir)
    (h : kv.1.length < 2 ^ 64 ∧ WFDir kv.2) (rest : List Nat) :
    decodePair (encodePair kv ++ rest) = some (kv, rest) := by
  unfold encodePair decodePair
  simp only [List.append_assoc]
  simp only [decodeStr_encodeStr _ h.1, Option.some_bind,
    decodeDir_encodeDir _ h.2]

/-- C1 — Codec round trip: for every wellformed snapshot mapping, `unmap`
    applied to the zstd-compressed bincode encoding that `map` produces
    reconstructs the mapping exactly — the same keys, file lists, children
    lists and size values. -/
theorem unmap_map_encode (tree : Snapshot) (h : WFSnapshot tree) :
    unmap (map_encode tree) = some tree := by
  obtain ⟨h1, h2⟩ := h
  have hlist := decodeList_encodeList encodePair decodePair tree h1
    (fun kv hkv r => decodePair_encodePair kv (h2 kv hkv) r) []
  rw [List.append_nil] at hlist
  unfold unmap map_encode zstd_encode_all zstd_decode_all bincodeEncode bincodeDecode
  simp only [Option.some_bind, hlist]

/-- Witness for C1: round trip of a concrete two-directory snapshot. -/
theorem unmap_map_encode_witness :
    unmap (map_encode [(str "d", ⟨300, [⟨1, str "p.jpg", 300⟩], [str "d/e"]⟩),
      (str "d/e", ⟨0, [], []⟩)]) =
    some [(str "d", ⟨300, [⟨1, str "p.jpg", 300⟩], [str "d/e"]⟩),
      (str "d/e", ⟨0, [], []⟩)] :=
  unmap_map_encode _ (by decide)

/-- Lookup after a `get_mut`-style update: the updated key's value is
    mapped, every other key is untouched. -/
theorem alookup_aupdate (m : Snapshot) (k : Str) (f : Dir → Dir) (k' : Str) :
    alookup (aupdate m k f) k' =
      if k = k' then (alookup m k').map f else alookup m k' := by
  induction m with
  | nil =>
    by_cases h : k = k' <;> simp [aupdate, alookup, h]
  | cons kv m ih =>
    obtain ⟨a, v⟩ := kv
    by_cases h1 : a = k
    · subst h1
      by_cases h2 : a = k'
      · subst h2
        simp [aupdate, alookup]
      · have h2' : ¬ a = k' := h2
        simp only [aupdate, List.map_cons, if_pos rfl] at *
        simp [alookup, h2', ih]
    · by_cases h2 : a = k'
      · subst h2
        have h1' : ¬ k = a := fun h => h1 h.symm
        simp only [aupdate, List.map_cons, if_neg h1] at *
        simp [alookup, h1', ih]
      · simp only [aupdate, List.map_cons, if_neg h1] at *
        simp [alookup, h2, ih]

/-- An update never changes which keys are present. -/
theorem alookup_aupdate_isSome (m : Snapshot) (k : Str) (f : Dir → Dir) (k' : Str) :
    (alookup (aupdate m k f) k').isSome = (alookup m k').isSome := by
  rw [alookup_aupdate]
  by_cases h : k = k'
  · rw [if_pos h]; cases alookup m k' <;> rfl
  · rw [if_neg h]

/-- Lookup through a single appended binding. -/
theorem alookup_append_one {α : Type} (m : List (Str × α)) (k : Str) (v : α)
    (k' : Str) :
    alookup (m ++ [(k, v)]) k' =
      match alookup m k' with
      | some d => some d
      | none => if k = k' then some v else none := by
  induction m with
  | nil =>
    by_cases h : k = k' <;> simp [alookup, h]
  | cons kv m ih =>
    by_cases h : kv.1 = k'
    · simp [alookup, h]
    · simp only [List.cons_append, alookup, if_neg h]
      exact ih

/-- Lookup through an insert-if-absent: presence means prior presence or
    the inserted key. -/
theorem alookup_dirInsert_isSome (m : Snapshot) (k k' : Str) :
    (alookup (dirInsert m k) k').isSome ↔ (alookup m k').isSome ∨ k = k' := by
  unfold dirInsert
  by_cases hk : (alookup m k).isSome
  · rw [if_pos hk]
    constructor
    · exact Or.inl
    · rintro (h | h)
      · exact h
      · subst h; exact hk
  · rw [if_neg hk, alookup_append_one]
    cases hm : alookup m k' with
    | some d => simp [hm]
    | none =>
      by_cases hkk : k = k' <;> simp [hm, hkk]

/-- Values reachable through an insert-if-absent: either an old binding or
    the fresh default record. -/
theorem alookup_dirInsert_val (m : Snapshot) (k k' : Str) (d : Dir) :
    alookup (dirInsert m k) k' = some d → alookup m k' = some d ∨ d = ⟨0, [], []⟩ := by
  unfold dirInsert
  by_cases hk : (alookup m k).isSome
  · rw [if_pos hk]; exact Or.inl
  · rw [if_neg hk, alookup_append_one]
    cases hm : alookup m k' with
    | some d0 => exact Or.inl
    | none =>
      by_cases hkk : k = k'
      · simp [hkk]
        exact fun h => h.symm
      · simp [hkk]

/-- `dirRenders` over a cons. -/
theorem dirRenders_cons (e : Entry) (es : List Entry) :
    dirRenders (e :: es) =
      if e.ftype = .dir then e.path.render :: dirRenders es else dirRenders es := by
  by_cases h : e.ftype = .dir <;> simp [dirRenders, List.filterMap_cons, h]

/-- A key is present after the Phase A fold exactly when it was present
    before or is the rendered path of a directory entry. -/
theorem phaseAFold_isSome (es : List Entry) : ∀ (m : Snapshot) (k : Str),
    (alookup (es.foldl stepA m) k).isSome ↔ (alookup m k).isSome ∨ k ∈ dirRenders es := by
  induction es with
  | nil => intro m k; simp [dirRenders]
  | cons e es ih =>
    intro m k
    rw [List.foldl_cons, ih, dirRenders_cons]
    by_cases h : e.ftype = .dir
    · rw [if_pos h]
      unfold stepA
      rw [if_pos h, alookup_dirInsert_isSome]
      simp only [List.mem_cons]
      constructor
      · rintro ((h1 | h1) | h2)
        · exact Or.inl h1
        · exact Or.inr (Or.inl h1.symm)
        · exact Or.inr (Or.inr h2)
      · rintro (h1 | h2 | h2)
        · exact Or.inl (Or.inl h1)
        · exact Or.inl (Or.inr h2.symm)
        · exact Or.inr h2
    · rw [if_neg h]
      unfold stepA
      rw [if_neg h]

/-- Every value present after the Phase A fold is an old binding or the
    default record. -/
theorem phaseAFold_val (es : List Entry) : ∀ (m : Snapshot) (k : Str) (d : Dir),
    alookup (es.foldl stepA m) k = some d → alookup m k = some d ∨ d = ⟨0, [], []⟩ := by
  induction es with
  | nil => exact fun m k d h => Or.inl h
  | cons e es ih =>
    intro m k d h
    rw [List.foldl_cons] at h
    rcases ih _ _ _ h with h' | h'
    · unfold stepA at h'
      by_cases hd : e.ftype = .dir
      · rw [if_pos hd] at h'
        exact alookup_dirInsert_val _ _ _ _ h'
      · rw [if_neg hd] at h'
        exact Or.inl h'
    · exact Or.inr h'

/-- Phase A registers exactly the rendered directory paths. -/
theorem phaseA_isSome (es : List Entry) (k : Str) :
    (alookup (phaseA es) k).isSome ↔ k ∈ dirRenders es := by
  unfold phaseA
  rw [phaseAFold_isSome]
  simp [alookup]

/-- Phase A stores only default records. -/
theorem phaseA_val (es : List Entry) (k : Str) (d : Dir)
    (h : alookup (phaseA es) k = some d) : d = ⟨0, [], []⟩ := by
  unfold phaseA at h
  rcases phaseAFold_val _ _ _ _ h with h' | h'
  · simp [alookup] at h'
  · exact h'

/-- Shape of one Phase B step on an error-free state: the mapping is
    unchanged, or one record gains a file, or one record gains as child
    the rendered path of the (directory) entry being processed. -/
theorem stepB_shape (m : Snapshot) (e : Entry) :
    (stepB (m, none) e).1 = m ∨
    (∃ pp f, (stepB (m, none) e).1 = aupdate m pp (fun d => d.add_file f)) ∨
    (e.ftype = .dir ∧
      ∃ pp, (stepB (m, none) e).1 = aupdate m pp (fun d => d.add_child e.path.render)) := by
  cases hf : e.ftype with
  | other => left; simp [stepB, hf]
  | file =>
    cases hp : e.path.parent with
    | none => left; simp [stepB, hf, hp]
    | some par =>
      cases hn : File.new e with
      | error er => left; simp [stepB, hf, hp, hn]
      | ok f =>
        by_cases hs : (alookup m par.render).isSome
        · right; left
          exact ⟨par.render, f, by simp [stepB, hf, hp, hn, hs]⟩
        · left; simp [stepB, hf, hp, hn, hs]
  | dir =>
    cases hp : e.path.parent with
    | none => left; simp [stepB, hf, hp]
    | some par =>
      by_cases ho : par.osEmpty
      · left; simp [stepB, hf, hp, ho]
      · by_cases hs : (alookup m par.render).isSome
        · right; right
          exact ⟨rfl, par.render, by simp [stepB, hf, hp, ho, hs]⟩
        · left; simp [stepB, hf, hp, ho, hs]

/-- A Phase B step never changes which keys are present. -/
theorem stepB_isSome (st : Snapshot × Option DError) (e : Entry) (k : Str) :
    (alookup (stepB st e).1 k).isSome = (alookup st.1 k).isSome := by
  obtain ⟨m, err⟩ := st
  cases err with
  | some e0 => rfl
  | none =>
    rcases stepB_shape m e with h | ⟨pp, f, h⟩ | ⟨_, pp, h⟩
    · rw [h]
    · rw [h, alookup_aupdate_isSome]
    · rw [h, alookup_aupdate_isSome]

/-- The Phase B fold never changes which keys are present. -/
theorem foldB_isSome (es : List Entry) : ∀ (st : Snapshot × Option DError) (k : Str),
    (alookup (es.foldl stepB st).1 k).isSome = (alookup st.1 k).isSome := by
  induction es with
  | nil => intro st k; rfl
  | cons e es ih =>
    intro st k
    rw [List.foldl_cons, ih, stepB_isSome]

/-- An already recorded error absorbs the rest of the Phase B fold. -/
theorem foldl_stepB_error (es : List Entry) (m : Snapshot) (e0 : DError) :
    es.foldl stepB (m, some e0) = (m, some e0) := by
  induction es with
  | nil => rfl
  | cons e es ih =>
    rw [List.foldl_cons]
    exact ih

/-- An update by a size-respecting mutation preserves the own-size
    invariant. -/
theorem size_inv_aupdate (m : Snapshot) (pp : Str) (g : Dir → Dir)
    (hg : ∀ d, d.size = (d.file.map File.size).sum →
      (g d).size = ((g d).file.map File.size).sum)
    (h : ∀ k d, alookup m k = some d → d.size = (d.file.map File.size).sum) :
    ∀ k d, alookup (aupdate m pp g) k = some d →
      d.size = (d.file.map File.size).sum := by
  intro k d
  rw [alookup_aupdate]
  by_cases hp : pp = k
  · rw [if_pos hp]
    cases hm : alookup m k with
    | none => simp
    | some d0 =>
      intro hd
      have hgd : g d0 = d := by simpa using hd
      rw [← hgd]
      exact hg d0 (h k d0 hm)
  · rw [if_neg hp]
    exact h k d

/-- One Phase B step preserves the own-size invariant. -/
theorem stepB_size_inv (st : Snapshot × Option DError) (e : Entry)
    (h : ∀ k d, alookup st.1 k = some d → d.size = (d.file.map File.size).sum) :
    ∀ k d, alookup (stepB st e).1 k = some d →
      d.size = (d.file.map File.size).sum := by
  obtain ⟨m, err⟩ := st
  cases err with
  | some e0 => exact h
  | none =>
    rcases stepB_shape m e with hs | ⟨pp, f, hs⟩ | ⟨_, pp, hs⟩
    · rw [hs]; exact h
    · rw [hs]
      refine size_inv_aupdate m pp _ ?_ h
      intro d hd
      simp [Dir.add_file, hd]
    · rw [hs]
      refine size_inv_aupdate m pp _ ?_ h
      intro d hd
      simpa [Dir.add_child] using hd

/-- The Phase B fold preserves the own-size invariant. -/
theorem foldB_size_inv (es : List Entry) : ∀ (st : Snapshot × Option DError),
    (∀ k d, alookup st.1 k = some d → d.size = (d.file.map File.size).sum) →
    ∀ k d, alookup (es.foldl stepB st).1 k = some d →
      d.size = (d.file.map File.size).sum := by
  induction es with
  | nil => exact fun st h => h
  | cons e es ih =>
    intro st h
    rw [List.foldl_cons]
    exact ih _ (stepB_size_inv st e h)

/-- C6 — Post-build own size: whenever `build_tree` returns `Ok` with a
    mapping, every record's `size` equals the sum of the sizes of the
    files directly contained in its `file` list. -/
theorem build_tree_own_size (entries : List Entry) (m : Snapshot)
    (h : build_tree entries = .ok m) :
    ∀ k d, alookup m k = some d → d.size = (d.file.map File.size).sum := by
  unfold build_tree buildTree2 at h
  rcases hfold : entries.foldl stepB (phaseA entries, none) with ⟨m', err⟩
  rw [hfold] at h
  cases err with
  | some e0 => cases h
  | none =>
    have hm : m' = m := by
      simpa using h
    subst hm
    have hinit : ∀ k d, alookup (phaseA entries) k = some d →
        d.size = (d.file.map File.size).sum := by
      intro k d hd
      rw [phaseA_val entries k d hd]
      rfl
    have hres := foldB_size_inv entries (phaseA entries, none) hinit
    rw [hfold] at hres
    exact hres

/-- Witness for C6: the record `build_tree` produces for `a/x` on a
    concrete three-entry walk satisfies the own-size equality. -/
theorem build_tree_own_size_witness :
    (⟨7, [⟨0, str "f.png", 7⟩], []⟩ : Dir).size =
      ((⟨7, [⟨0, str "f.png", 7⟩], []⟩ : Dir).file.map File.size).sum :=
  build_tree_own_size
    [⟨⟨false, [str "a"]⟩, .dir, none⟩,
     ⟨⟨false, [str "a", str "x"]⟩, .dir, none⟩,
     ⟨⟨false, [str "a", str "x", str "f.png"]⟩, .file, some 7⟩]
    [(str "a", ⟨0, [], [str "a/x"]⟩),
     (str "a/x", ⟨7, [⟨0, str "f.png", 7⟩], []⟩)]
    (by decide) (str "a/x") ⟨7, [⟨0, str "f.png", 7⟩], []⟩ (by decide)

/-- An update by a mutation that only adds a registered child preserves
    the children-are-keys invariant. -/
theorem children_inv_aupdate (m : Snapshot) (pp : Str) (g : Dir → Dir)
    (hg : ∀ d0, ∀ c ∈ (g d0).children, c ∈ d0.children ∨ (alookup m c).isSome)
    (hinv : ∀ k d, alookup m k = some d → ∀ c ∈ d.children, (alookup m c).isSome) :
    ∀ k d, alookup (aupdate m pp g) k = some d →
      ∀ c ∈ d.children, (alookup (aupdate m pp g) c).isSome := by
  intro k d hd c hc
  rw [alookup_aupdate_isSome]
  rw [alookup_aupdate] at hd
  by_cases hpk : pp = k
  · rw [if_pos hpk] at hd
    cases hm : alookup m k with
    | none => rw [hm] at hd; cases hd
    | some d0 =>
      rw [hm] at hd
      have hgd : g d0 = d := by simpa using hd
      rcases hg d0 c (hgd ▸ hc) with h' | h'
      · exact hinv k d0 hm c h'
      · exact h'
  · rw [if_neg hpk] at hd
    exact hinv k d hd c hc

/-- One Phase B step preserves the children-are-keys invariant, given
    that every directory entry's rendered path is a key. -/
theorem stepB_children_inv (st : Snapshot × Option DError) (e : Entry)
    (hd : e.ftype = .dir → (alookup st.1 e.path.render).isSome)
    (hinv : ∀ k d, alookup st.1 k = some d → ∀ c ∈ d.children, (alookup st.1 c).isSome) :
    ∀ k d, alookup (stepB st e).1 k = some d →
      ∀ c ∈ d.children, (alookup (stepB st e).1 c).isSome := by
  obtain ⟨m, err⟩ := st
  cases err with
  | some e0 => exact hinv
  | none =>
    rcases stepB_shape m e with hs | ⟨pp, f, hs⟩ | ⟨hdir, pp, hs⟩
    · rw [hs]; exact hinv
    · rw [hs]
      refine children_inv_aupdate m pp _ ?_ hinv
      intro d0 c hc
      exact Or.inl (by simpa [Dir.add_file] using hc)
    · rw [hs]
      refine children_inv_aupdate m pp _ ?_ hinv
      intro d0 c hc
      rcases (by simpa [Dir.add_child] using hc :
          c ∈ d0.children ∨ c = e.path.render) with h' | h'
      · exact Or.inl h'
      · subst h'
        exact Or.inr (hd hdir)

/-- The Phase B fold preserves the children-are-keys invariant, given
    that every directory entry of the remaining walk is registered. -/
theorem foldB_children_inv (es : List Entry) : ∀ (st : Snapshot × Option DError),
    (∀ e ∈ es, e.ftype = .dir → (alookup st.1 e.path.render).isSome) →
    (∀ k d, alookup st.1 k = some d → ∀ c ∈ d.children, (alookup st.1 c).isSome) →
    ∀ k d, alookup (es.foldl stepB st).1 k = some d →
      ∀ c ∈ d.children, (alookup (es.foldl stepB st).1 c).isSome := by
  induction es with
  | nil => exact fun st _ h => h
  | cons e es ih =>
    intro st hds hinv
    rw [List.foldl_cons]
    refine ih _ ?_ ?_
    · intro e' he' hdir
      rw [stepB_isSome]
      exact hds e' (List.mem_cons_of_mem e he') hdir
    · exact stepB_children_inv st e (hds e (List.mem_cons_self e es)) hinv

/-- A missing child makes the summation loop of the `Calculate` arm fail. -/
theorem childSum_none (s : SizeMap) (cs : List Str)
    (h : ∃ c ∈ cs, alookup s c = none) : childSum s cs = none := by
  induction cs with
  | nil =>
    rcases h with ⟨c, hc, _⟩
    cases hc
  | cons c cs ih =>
    rcases h with ⟨c0, hc0, hn⟩
    rcases List.mem_cons.mp hc0 with h' | h'
    · subst h'
      simp [childSum, hn]
    · unfold childSum
      cases hl : alookup s c with
      | none => rfl
      | some v =>
        rw [ih ⟨c0, h', hn⟩]
        rfl

/-- C5 — Children-are-keys invariant: whenever `build_tree` returns `Ok`
    with a mapping, every string in any record's `children` list is a key
    of the mapping (Phase A registers every directory's rendered path
    before Phase B appends it as a child, under the same normalization);
    and a violation at aggregation time — a `Calculate` item one of whose
    children has no recorded size — is reported as a missing-directory
    error, never silently dropped. -/
theorem children_are_keys :
    (∀ (entries : List Entry) (m : Snapshot), build_tree entries = .ok m →
      ∀ k d, alookup m k = some d → ∀ c ∈ d.children, (alookup m c).isSome) ∧
    (∀ (dirs : Snapshot) (p : Str) (rest : List StackItem) (s : SizeMap)
      (f : Nat) (d : Dir), alookup dirs p = some d →
      (∃ c ∈ d.children, alookup s c = none) →
      calcRun dirs (f + 1) (.Calculate p :: rest) s =
        some (.error (.missingDir p))) := by
  constructor
  · intro entries m h
    unfold build_tree buildTree2 at h
    rcases hfold : entries.foldl stepB (phaseA entries, none) with ⟨m', err⟩
    rw [hfold] at h
    cases err with
    | some e0 => cases h
    | none =>
      have hm : m' = m := by simpa using h
      subst hm
      have hds : ∀ e ∈ entries, e.ftype = .dir →
          (alookup (phaseA entries) e.path.render).isSome := by
        intro e he hdir
        rw [phaseA_isSome]
        unfold dirRenders
        exact List.mem_filterMap.mpr ⟨e, he, by rw [hdir]; rfl⟩
      have hinit : ∀ k d, alookup (phaseA entries) k = some d →
          ∀ c ∈ d.children, (alookup (phaseA entries) c).isSome := by
        intro k d hd c hc
        rw [phaseA_val entries k d hd] at hc
        cases hc
      have hres := foldB_children_inv entries (phaseA entries, none) hds hinit
      rw [hfold] at hres
      exact hres
  · intro dirs p rest s f d hd hmiss
    rw [calcRun]
    simp only [calcStep, hd, childSum_none s d.children hmiss]

/-- Witness for C5: both clauses at concrete inputs — a child produced by
    a concrete build is a key, and a concrete `Calculate` with an
    unrecorded child errors. -/
theorem children_are_keys_witness :
    (alookup ([(str "a", ⟨0, [], [str "a/x"]⟩),
      (str "a/x", ⟨7, [⟨0, str "f.png", 7⟩], []⟩)] : Snapshot) (str "a/x")).isSome ∧
    calcRun cycMissingSnap 1 [.Calculate (str "a")] [] =
      some (.error (.missingDir (str "a"))) :=
  ⟨children_are_keys.1
      ([⟨⟨false, [str "a"]⟩, .dir, none⟩,
        ⟨⟨false, [str "a", str "x"]⟩, .dir, none⟩,
        ⟨⟨false, [str "a", str "x", str "f.png"]⟩, .file, some 7⟩] : List Entry)
      ([(str "a", ⟨0, [], [str "a/x"]⟩),
        (str "a/x", ⟨7, [⟨0, str "f.png", 7⟩], []⟩)] : Snapshot)
      (by decide) (str "a") ⟨0, [], [str "a/x"]⟩ (by decide)
      (str "a/x") (by decide),
   children_are_keys.2 cycMissingSnap (str "a") [] [] 0
      ⟨0, [], [str "b", str "a"]⟩ (by decide)
      ⟨str "b", by decide, by decide⟩⟩

/-- A non-file entry contributes no file. -/
theorem filesOf_cons_nonfile (k : Str) (e : Entry) (es : List Entry)
    (hf : e.ftype ≠ .file) : filesOf k (e :: es) = filesOf k es := by
  cases hft : e.ftype with
  | file => exact absurd hft hf
  | dir => cases hp : e.path.parent <;> simp [filesOf, List.filterMap_cons, hft, hp]
  | other => cases hp : e.path.parent <;> simp [filesOf, List.filterMap_cons, hft, hp]

/-- A parentless file entry contributes no file. -/
theorem filesOf_cons_noparent (k : Str) (e : Entry) (es : List Entry)
    (hf : e.ftype = .file) (hp : e.path.parent = none) :
    filesOf k (e :: es) = filesOf k es := by
  simp [filesOf, List.filterMap_cons, hf, hp]

/-- A file entry with a parent contributes its `File` record to the
    parent's key. -/
theorem filesOf_cons_file (k : Str) (e : Entry) (es : List Entry)
    (par : RPath) (fl : File) (hf : e.ftype = .file)
    (hp : e.path.parent = some par) (hn : File.new e = .ok fl) :
    filesOf k (e :: es) =
      if par.render = k then fl :: filesOf k es else filesOf k es := by
  by_cases h : par.render = k <;>
    simp [filesOf, List.filterMap_cons, hf, hp, hn, h]

/-- A non-directory entry contributes no child link. -/
theorem childrenOf_cons_nondir (k : Str) (e : Entry) (es : List Entry)
    (hf : e.ftype ≠ .dir) : childrenOf k (e :: es) = childrenOf k es := by
  cases hft : e.ftype with
  | dir => exact absurd hft hf
  | file => cases hp : e.path.parent <;> simp [childrenOf, List.filterMap_cons, hft, hp]
  | other => cases hp : e.path.parent <;> simp [childrenOf, List.filterMap_cons, hft, hp]

/-- A parentless directory entry contributes no child link. -/
theorem childrenOf_cons_noparent (k : Str) (e : Entry) (es : List Entry)
    (hf : e.ftype = .dir) (hp : e.path.parent = none) :
    childrenOf k (e :: es) = childrenOf k es := by
  simp [childrenOf, List.filterMap_cons, hf, hp]

/-- A directory entry whose parent path is empty contributes no child
    link (the root case). -/
theorem childrenOf_cons_osEmpty (k : Str) (e : Entry) (es : List Entry)
    (par : RPath) (hf : e.ftype = .dir) (hp : e.path.parent = some par)
    (ho : par.osEmpty = true) :
    childrenOf k (e :: es) = childrenOf k es := by
  simp [childrenOf, List.filterMap_cons, hf, hp, ho]

/-- A directory entry with a non-empty parent contributes its rendered
    path to the parent's key. -/
theorem childrenOf_cons_dir (k : Str) (e : Entry) (es : List Entry)
    (par : RPath) (hf : e.ftype = .dir) (hp : e.path.parent = some par)
    (ho : par.osEmpty = false) :
    childrenOf k (e :: es) =
      if par.render = k then e.path.render :: childrenOf k es
      else childrenOf k es := by
  by_cases h : par.render = k <;>
    simp [childrenOf, List.filterMap_cons, hf, hp, ho, h]

/-- Characterization of the Phase B fold on an error-free state whose
    entries can all be processed: no error is recorded, the key set is
    unchanged, and every record accumulates exactly the files and child
    links its key receives from the processed entries, in entry order,
    with `size` advanced by the sum of the appended file sizes. -/
theorem foldB_char (es : List Entry) : ∀ (m : Snapshot),
    (∀ e ∈ es,
      (e.ftype = .file → ∀ par, e.path.parent = some par →
        e.msize.isSome ∧ (alookup m par.render).isSome) ∧
      (e.ftype = .dir → ∀ par, e.path.parent = some par → par.osEmpty = false →
        (alookup m par.render).isSome)) →
    ∃ m', es.foldl stepB (m, none) = (m', none) ∧
      (∀ k, (alookup m' k).isSome = (alookup m k).isSome) ∧
      ∀ k d, alookup m k = some d →
        alookup m' k = some ⟨d.size + ((filesOf k es).map File.size).sum,
          d.file ++ filesOf k es, d.children ++ childrenOf k es⟩ := by
  induction es with
  | nil =>
    intro m _
    refine ⟨m, rfl, fun k => rfl, ?_⟩
    intro k d hd
    simpa [filesOf, childrenOf] using hd
  | cons e es ih =>
    intro m hok
    have hoktail := fun e' he' => hok e' (List.mem_cons_of_mem e he')
    cases hf : e.ftype with
    | other =>
      have hstep : stepB (m, none) e = (m, none) := by simp [stepB, hf]
      obtain ⟨m', hfold, hkeys, hrec⟩ := ih m hoktail
      refine ⟨m', by rw [List.foldl_cons, hstep]; exact hfold, hkeys, ?_⟩
      intro k d hd
      rw [filesOf_cons_nonfile k e es (by rw [hf]; intro h; cases h),
        childrenOf_cons_nondir k e es (by rw [hf]; intro h; cases h)]
      exact hrec k d hd
    | file =>
      cases hp : e.path.parent with
      | none =>
        have hstep : stepB (m, none) e = (m, none) := by simp [stepB, hf, hp]
        obtain ⟨m', hfold, hkeys, hrec⟩ := ih m hoktail
        refine ⟨m', by rw [List.foldl_cons, hstep]; exact hfold, hkeys, ?_⟩
        intro k d hd
        rw [filesOf_cons_noparent k e es hf hp,
          childrenOf_cons_nondir k e es (by rw [hf]; intro h; cases h)]
        exact hrec k d hd
      | some par =>
        obtain ⟨hms, hpar⟩ := (hok e (List.mem_cons_self e es)).1 hf par hp
        obtain ⟨sz, hsz⟩ := Option.isSome_iff_exists.mp hms
        have hnew : File.new e = .ok ⟨File.recognize_file_type e.path,
            e.file_name, sz⟩ := by
          unfold File.new
          rw [hsz]
        set fl : File := ⟨File.recognize_file_type e.path, e.file_name, sz⟩
        have hstep : stepB (m, none) e =
            (aupdate m par.render (fun d => d.add_file fl), none) := by
          simp [stepB, hf, hp, hnew, hpar]
        set m₁ := aupdate m par.render (fun d => d.add_file fl) with hm₁
        have hkeys₁ : ∀ k, (alookup m₁ k).isSome = (alookup m k).isSome :=
          fun k => alookup_aupdate_isSome m par.render _ k
        have hok₁ : ∀ e' ∈ es,
            (e'.ftype = .file → ∀ par', e'.path.parent = some par' →
              e'.msize.isSome ∧ (alookup m₁ par'.render).isSome) ∧
            (e'.ftype = .dir → ∀ par', e'.path.parent = some par' →
              par'.osEmpty = false → (alookup m₁ par'.render).isSome) := by
          intro e' he'
          obtain ⟨hfile', hdir'⟩ := hoktail e' he'
          refine ⟨?_, ?_⟩
          · intro h1 par' h2
            obtain ⟨h3, h4⟩ := hfile' h1 par' h2
            exact ⟨h3, by rw [hkeys₁]; exact h4⟩
          · intro h1 par' h2 h3
            rw [hkeys₁]
            exact hdir' h1 par' h2 h3
        obtain ⟨m', hfold, hkeys, hrec⟩ := ih m₁ hok₁
        refine ⟨m', by rw [List.foldl_cons, hstep]; exact hfold,
          fun k => by rw [hkeys k, hkeys₁ k], ?_⟩
        intro k d hd
        rw [filesOf_cons_file k e es par fl hf hp hnew,
          childrenOf_cons_nondir k e es (by rw [hf]; intro h; cases h)]
        by_cases hpk : par.render = k
        · rw [if_pos hpk]
          have hd₁ : alookup m₁ k = some (d.add_file fl) := by
            rw [hm₁, alookup_aupdate, if_pos hpk, hd]
            rfl
          have := hrec k (d.add_file fl) hd₁
          rw [this]
          simp [Dir.add_file, Nat.add_assoc]
        · rw [if_neg hpk]
          have hd₁ : alookup m₁ k = some d := by
            rw [hm₁, alookup_aupdate, if_neg hpk]
            exact hd
          exact hrec k d hd₁
    | dir =>
      cases hp : e.path.parent with
      | none =>
        have hstep : stepB (m, none) e = (m, none) := by simp [stepB, hf, hp]
        obtain ⟨m', hfold, hkeys, hrec⟩ := ih m hoktail
        refine ⟨m', by rw [List.foldl_cons, hstep]; exact hfold, hkeys, ?_⟩
        intro k d hd
        rw [filesOf_cons_nonfile k e es (by rw [hf]; intro h; cases h),
          childrenOf_cons_noparent k e es hf hp]
        exact hrec k d hd
      | some par =>
        by_cases ho : par.osEmpty
        · have hstep : stepB (m, none) e = (m, none) := by simp [stepB, hf, hp, ho]
          obtain ⟨m', hfold, hkeys, hrec⟩ := ih m hoktail
          refine ⟨m', by rw [List.foldl_cons, hstep]; exact hfold, hkeys, ?_⟩
          intro k d hd
          rw [filesOf_cons_nonfile k e es (by rw [hf]; intro h; cases h),
            childrenOf_cons_osEmpty k e es par hf hp ho]
          exact hrec k d hd
        · have ho' : par.osEmpty = false := by
            cases hob : par.osEmpty
            · rfl
            · exact absurd hob ho
          have hpar := (hok e (List.mem_cons_self e es)).2 hf par hp ho'
          have hstep : stepB (m, none) e =
              (aupdate m par.render (fun d => d.add_child e.path.render), none) := by
            simp [stepB, hf, hp, ho, hpar]
          set m₁ := aupdate m par.render (fun d => d.add_child e.path.render) with hm₁
          have hkeys₁ : ∀ k, (alookup m₁ k).isSome = (alookup m k).isSome :=
            fun k => alookup_aupdate_isSome m par.render _ k
          have hok₁ : ∀ e' ∈ es,
              (e'.ftype = .file → ∀ par', e'.path.parent = some par' →
                e'.msize.isSome ∧ (alookup m₁ par'.render).isSome) ∧
              (e'.ftype = .dir → ∀ par', e'.path.parent = some par' →
                par'.osEmpty = false → (alookup m₁ par'.render).isSome) := by
            intro e' he'
            obtain ⟨hfile', hdir'⟩ := hoktail e' he'
            refine ⟨?_, ?_⟩
            · intro h1 par' h2
              obtain ⟨h3, h4⟩ := hfile' h1 par' h2
              exact ⟨h3, by rw [hkeys₁]; exact h4⟩
            · intro h1 par' h2 h3
              rw [hkeys₁]
              exact hdir' h1 par' h2 h3
          obtain ⟨m', hfold, hkeys, hrec⟩ := ih m₁ hok₁
          refine ⟨m', by rw [List.foldl_cons, hstep]; exact hfold,
            fun k => by rw [hkeys k, hkeys₁ k], ?_⟩
          intro k d hd
          rw [filesOf_cons_nonfile k e es (by rw [hf]; intro h; cases h),
            childrenOf_cons_dir k e es par hf hp ho']
          by_cases hpk : par.render = k
          · rw [if_pos hpk]
            have hd₁ : alookup m₁ k = some (d.add_child e.path.render) := by
              rw [hm₁, alookup_aupdate, if_pos hpk, hd]
              rfl
            have := hrec k (d.add_child e.path.render) hd₁
            rw [this]
            simp [Dir.add_child]
          · rw [if_neg hpk]
            have hd₁ : alookup m₁ k = some d := by
              rw [hm₁, alookup_aupdate, if_neg hpk]
              exact hd
            exact hrec k d hd₁

/-- Unpacking `entryOK`: the Prop-shaped processing conditions. -/
theorem entryOK_unpack (keys : List Str) (e : Entry) (h : entryOK keys e = true) :
    (e.ftype = .file → ∀ par, e.path.parent = some par →
      e.msize.isSome ∧ par.render ∈ keys) ∧
    (e.ftype = .dir → ∀ par, e.path.parent = some par → par.osEmpty = false →
      par.render ∈ keys) := by
  constructor
  · intro hf par hp
    rw [entryOK, hf, hp] at h
    simp at h
    simpa using h
  · intro hf par hp ho
    rw [entryOK, hf, hp] at h
    simp [ho] at h
    simpa using h

/-- Equal membership gives equal `isSome` flags on Phase A maps. -/
theorem phaseA_isSome_congr (esA esA' : List Entry) (k : Str)
    (h : k ∈ dirRenders esA ↔ k ∈ dirRenders esA') :
    (alookup (phaseA esA) k).isSome = (alookup (phaseA esA') k).isSome := by
  rw [Bool.eq_iff_iff, phaseA_isSome, phaseA_isSome]
  exact h

/-- C9 — Order independence of tree building: for a fixed list of walk
    entries over a readable static tree, and any two processing orders
    (any permutations of the entries within Phase A and within Phase B,
    Phase A completing first), both runs return `Ok`, and the resulting
    mappings agree: the same keys, the same `size` totals, and the same
    files and children per directory up to order (multisets). -/
theorem build_tree_order_independent
    (es esA₁ esB₁ esA₂ esB₂ : List Entry)
    (hA₁ : esA₁.Perm es) (hB₁ : esB₁.Perm es)
    (hA₂ : esA₂.Perm es) (hB₂ : esB₂.Perm es)
    (hwf : WalkWF es = true) :
    ∃ m₁ m₂, buildTree2 esA₁ esB₁ = .ok m₁ ∧ buildTree2 esA₂ esB₂ = .ok m₂ ∧
      (∀ k, (alookup m₁ k).isSome = (alookup m₂ k).isSome) ∧
      ∀ k d₁ d₂, alookup m₁ k = some d₁ → alookup m₂ k = some d₂ →
        d₁.size = d₂.size ∧ d₁.file.Perm d₂.file ∧ d₁.children.Perm d₂.children := by
  have hall : ∀ e ∈ es, entryOK (dirRenders es) e = true := by
    intro e he
    exact List.all_eq_true.mp hwf e he
  have hren : ∀ (esA : List Entry), esA.Perm es →
      ∀ k, k ∈ dirRenders esA ↔ k ∈ dirRenders es := by
    intro esA hperm k
    exact (hperm.filterMap _).mem_iff
  have hok : ∀ (esA esB : List Entry), esA.Perm es → esB.Perm es →
      ∀ e ∈ esB,
        (e.ftype = .file → ∀ par, e.path.parent = some par →
          e.msize.isSome ∧ (alookup (phaseA esA) par.render).isSome) ∧
        (e.ftype = .dir → ∀ par, e.path.parent = some par →
          par.osEmpty = false → (alookup (phaseA esA) par.render).isSome) := by
    intro esA esB hpa hpb e he
    have he' : e ∈ es := hpb.mem_iff.mp he
    obtain ⟨h1, h2⟩ := entryOK_unpack _ e (hall e he')
    constructor
    · intro hf par hp
      obtain ⟨h3, h4⟩ := h1 hf par hp
      refine ⟨h3, ?_⟩
      rw [phaseA_isSome]
      exact (hren esA hpa par.render).mpr h4
    · intro hf par hp ho
      rw [phaseA_isSome]
      exact (hren esA hpa par.render).mpr (h2 hf par hp ho)
  obtain ⟨m₁, hfold₁, hkeys₁, hrec₁⟩ :=
    foldB_char esB₁ (phaseA esA₁) (hok esA₁ esB₁ hA₁ hB₁)
  obtain ⟨m₂, hfold₂, hkeys₂, hrec₂⟩ :=
    foldB_char esB₂ (phaseA esA₂) (hok esA₂ esB₂ hA₂ hB₂)
  have hkk : ∀ k, (alookup m₁ k).isSome = (alookup m₂ k).isSome := by
    intro k
    rw [hkeys₁ k, hkeys₂ k]
    exact phaseA_isSome_congr esA₁ esA₂ k
      ((hren esA₁ hA₁ k).trans (hren esA₂ hA₂ k).symm)
  refine ⟨m₁, m₂, by unfold buildTree2; rw [hfold₁],
    by unfold buildTree2; rw [hfold₂], hkk, ?_⟩
  intro k d₁ d₂ hd₁ hd₂
  have hs₁ : (alookup (phaseA esA₁) k).isSome := by
    rw [← hkeys₁ k, hd₁]; rfl
  have hs₂ : (alookup (phaseA esA₂) k).isSome := by
    rw [← hkeys₂ k, hd₂]; rfl
  obtain ⟨d01, hd01⟩ := Option.isSome_iff_exists.mp hs₁
  obtain ⟨d02, hd02⟩ := Option.isSome_iff_exists.mp hs₂
  have hd01' := phaseA_val esA₁ k d01 hd01
  have hd02' := phaseA_val esA₂ k d02 hd02
  subst hd01' hd02'
  have hv₁ := hrec₁ k _ hd01
  have hv₂ := hrec₂ k _ hd02
  rw [hd₁] at hv₁
  rw [hd₂] at hv₂
  have hv₁' : d₁ = ⟨((filesOf k esB₁).map File.size).sum,
      filesOf k esB₁, childrenOf k esB₁⟩ := by
    have := Option.some_injective _ hv₁
    simpa using this
  have hv₂' : d₂ = ⟨((filesOf k esB₂).map File.size).sum,
      filesOf k esB₂, childrenOf k esB₂⟩ := by
    have := Option.some_injective _ hv₂
    simpa using this
  subst hv₁' hv₂'
  have hpf : (filesOf k esB₁).Perm (filesOf k esB₂) :=
    (hB₁.trans hB₂.symm).filterMap _
  have hpc : (childrenOf k esB₁).Perm (childrenOf k esB₂) :=
    (hB₁.trans hB₂.symm).filterMap _
  exact ⟨(hpf.map File.size).sum_eq, hpf, hpc⟩

/-- Witness for C9: two explicit schedules of a concrete two-entry walk. -/
theorem build_tree_order_independent_witness :
    ∃ m₁ m₂,
      buildTree2
        [⟨⟨false, [str "a"]⟩, .dir, none⟩, ⟨⟨false, [str "a", str "x"]⟩, .dir, none⟩]
        [⟨⟨false, [str "a", str "x"]⟩, .dir, none⟩, ⟨⟨false, [str "a"]⟩, .dir, none⟩]
        = .ok m₁ ∧
      buildTree2
        [⟨⟨false, [str "a", str "x"]⟩, .dir, none⟩, ⟨⟨false, [str "a"]⟩, .dir, none⟩]
        [⟨⟨false, [str "a"]⟩, .dir, none⟩, ⟨⟨false, [str "a", str "x"]⟩, .dir, none⟩]
        = .ok m₂ ∧
      (∀ k, (alookup m₁ k).isSome = (alookup m₂ k).isSome) ∧
      ∀ k d₁ d₂, alookup m₁ k = some d₁ → alookup m₂ k = some d₂ →
        d₁.size = d₂.size ∧ d₁.file.Perm d₂.file ∧ d₁.children.Perm d₂.children :=
  build_tree_order_independent
    [⟨⟨false, [str "a"]⟩, .dir, none⟩, ⟨⟨false, [str "a", str "x"]⟩, .dir, none⟩]
    [⟨⟨false, [str "a"]⟩, .dir, none⟩, ⟨⟨false, [str "a", str "x"]⟩, .dir, none⟩]
    [⟨⟨false, [str "a", str "x"]⟩, .dir, none⟩, ⟨⟨false, [str "a"]⟩, .dir, none⟩]
    [⟨⟨false, [str "a", str "x"]⟩, .dir, none⟩, ⟨⟨false, [str "a"]⟩, .dir, none⟩]
    [⟨⟨false, [str "a"]⟩, .dir, none⟩, ⟨⟨false, [str "a", str "x"]⟩, .dir, none⟩]
    (List.Perm.refl _) (List.Perm.swap _ _ _).symm
    (List.Perm.swap _ _ _).symm (List.Perm.refl _)
    (by decide)

/-- Reachability is transitive. -/
theorem Reach.trans' (dirs : Snapshot) {a b c : Str}
    (h1 : Reach dirs a b) (h2 : Reach dirs b c) : Reach dirs a c := by
  induction h2 with
  | refl => exact h1
  | tail _ hd hc ih => exact Reach.tail ih hd hc

/-- Reachability through a listed child. -/
theorem Reach.head (dirs : Snapshot) {p c q : Str} {d : Dir}
    (hd : alookup dirs p = some d) (hc : c ∈ d.children)
    (h : Reach dirs c q) : Reach dirs p q :=
  Reach.trans' dirs (Reach.tail (Reach.refl p) hd hc) h

/-- Inversion at the front: a reachable node is the root itself or lies in
    the subtree of one of the root's listed children. -/
theorem Reach.cases_front (dirs : Snapshot) {p q : Str} (h : Reach dirs p q) :
    q = p ∨ ∃ d c, alookup dirs p = some d ∧ c ∈ d.children ∧ Reach dirs c q := by
  induction h with
  | refl => exact Or.inl rfl
  | tail _ hd hc ih =>
    rcases ih with h' | ⟨d0, c0, hd0, hc0, hr⟩
    · subst h'
      exact Or.inr ⟨_, _, hd, hc, Reach.refl _⟩
    · exact Or.inr ⟨d0, c0, hd0, hc0, Reach.tail hr hd hc⟩

/-- Reachable-set bounding: a list closed under listed children and
    holding the start bounds everything reachable. -/
theorem reach_mem_of_closed (dirs : Snapshot) (start : Str) (L : List Str)
    (hs : start ∈ L)
    (hc : ∀ p ∈ L, ∀ d, alookup dirs p = some d → ∀ c ∈ d.children, c ∈ L) :
    ∀ q, Reach dirs start q → q ∈ L := by
  intro q h
  induction h with
  | refl => exact hs
  | tail _ hd hcc ih => exact hc _ ih _ hd _ hcc

/-- Replacing a key's bindings leaves every other key's lookup unchanged. -/
theorem lookup_map_replace_ne (s : SizeMap) (k : Str) (v : Nat) (k' : Str)
    (h : k ≠ k') :
    alookup (s.map (fun kv => if kv.1 = k then (k, v) else kv)) k' =
      alookup s k' := by
  induction s with
  | nil => rfl
  | cons kv s ih =>
    by_cases h1 : kv.1 = k
    · have h2 : ¬ kv.1 = k' := by rw [h1]; exact h
      simp only [List.map_cons, if_pos h1, alookup, if_neg h, if_neg h2]
      exact ih
    · simp only [List.map_cons, if_neg h1, alookup]
      by_cases h2 : kv.1 = k'
      · rw [if_pos h2, if_pos h2]
      · rw [if_neg h2, if_neg h2]
        exact ih

/-- Replacing a present key's bindings makes its lookup the new value. -/
theorem lookup_map_replace_self (s : SizeMap) (k : Str) (v : Nat)
    (hs : (alookup s k).isSome) :
    alookup (s.map (fun kv => if kv.1 = k then (k, v) else kv)) k = some v := by
  induction s with
  | nil => simp [alookup] at hs
  | cons kv s ih =>
    by_cases h1 : kv.1 = k
    · simp [alookup, List.map_cons, if_pos h1]
    · have hs' : (alookup s k).isSome := by simpa [alookup, h1] using hs
      simp only [List.map_cons, if_neg h1, alookup, if_neg h1]
      exact ih hs'

/-- `sizes.insert` semantics on lookups. -/
theorem alookup_supsert (s : SizeMap) (k : Str) (v : Nat) (k' : Str) :
    alookup (supsert s k v) k' = if k = k' then some v else alookup s k' := by
  unfold supsert
  by_cases hs : (alookup s k).isSome
  · rw [if_pos hs]
    by_cases h2 : k = k'
    · subst h2
      rw [if_pos rfl]
      exact lookup_map_replace_self s k v hs
    · rw [if_neg h2]
      exact lookup_map_replace_ne s k v k' h2
  · rw [if_neg hs, alookup_append_one]
    by_cases h2 : k = k'
    · subst h2
      cases hm : alookup s k with
      | some x => rw [hm] at hs; simp at hs
      | none => simp [hm]
    · cases hm : alookup s k' with
      | some x => simp [hm, h2]
      | none => simp [hm, h2]

/-- The `Calculate` summation succeeds with the recorded values. -/
theorem childSum_eq (s : SizeMap) (cs : List Str) (vals : Str → Nat)
    (h : ∀ c ∈ cs, alookup s c = some (vals c)) :
    childSum s cs = some ((cs.map vals).sum) := by
  induction cs with
  | nil => rfl
  | cons c cs ih =>
    unfold childSum
    rw [h c (List.mem_cons_self c cs),
      ih (fun c' hc' => h c' (List.mem_cons_of_mem c hc'))]
    simp

/-- Under the ranked-tree hypotheses, the depth-bounded subtree size is
    independent of the bound past the node's rank. -/
theorem aggBound_stable (dirs : Snapshot) (start : Str) (rank : Str → Nat)
    (H : ∀ p, Reach dirs start p → ∀ d, alookup dirs p = some d →
      ∀ c ∈ d.children, rank c < rank p)
    (hpres : ∀ p, Reach dirs start p → (alookup dirs p).isSome) :
    ∀ n p, rank p ≤ n → Reach dirs start p → ∀ f, rank p ≤ f →
      aggBound dirs f p = aggVal dirs rank p := by
  intro n
  induction n using Nat.strong_induction_on with
  | _ n ih =>
    intro p hpn hreach f hpf
    obtain ⟨d, hd⟩ := Option.isSome_iff_exists.mp (hpres p hreach)
    cases hr : rank p with
    | zero =>
      have hnil : d.children = [] := by
        cases hcs : d.children with
        | nil => rfl
        | cons c cs =>
          have := H p hreach d hd c (by rw [hcs]; exact List.mem_cons_self c cs)
          omega
      unfold aggVal
      rw [hr]
      cases f with
      | zero => rfl
      | succ f' => simp [aggBound, hd, hnil]
    | succ r =>
      obtain ⟨f', rfl⟩ : ∃ f', f = f' + 1 := ⟨f - 1, by omega⟩
      unfold aggVal
      rw [hr]
      simp only [aggBound, hd]
      congr 1
      refine congrArg List.sum ?_
      apply List.map_congr_left
      intro c hc
      have hcr : Reach dirs start c := Reach.tail hreach hd hc
      have hlt : rank c < rank p := H p hreach d hd c hc
      rw [ih (rank c) (by omega) c le_rfl hcr f' (by omega),
        ih (rank c) (by omega) c le_rfl hcr r (by omega)]

/-- The reference subtree size satisfies the recursive-sum equation. -/
theorem aggVal_eq (dirs : Snapshot) (start : Str) (rank : Str → Nat)
    (H : ∀ p, Reach dirs start p → ∀ d, alookup dirs p = some d →
      ∀ c ∈ d.children, rank c < rank p)
    (hpres : ∀ p, Reach dirs start p → (alookup dirs p).isSome)
    (p : Str) (hreach : Reach dirs start p) (d : Dir)
    (hd : alookup dirs p = some d) :
    aggVal dirs rank p = d.size + ((d.children.map (aggVal dirs rank)).sum) := by
  cases hr : rank p with
  | zero =>
    have hnil : d.children = [] := by
      cases hcs : d.children with
      | nil => rfl
      | cons c cs =>
        have := H p hreach d hd c (by rw [hcs]; exact List.mem_cons_self c cs)
        omega
    unfold aggVal
    rw [hr]
    simp [aggBound, hd, hnil]
  | succ r =>
    unfold aggVal
    rw [hr]
    simp only [aggBound, hd]
    congr 1
    refine congrArg List.sum ?_
    apply List.map_congr_left
    intro c hc
    have hcr : Reach dirs start c := Reach.tail hreach hd hc
    have hlt : rank c < rank p := H p hreach d hd c hc
    exact aggBound_stable dirs start rank H hpres (rank c) c le_rfl hcr r (by omega)

/-- Main execution lemma for the aggregation loop: under the ranked-tree
    hypotheses, popping `Process p` runs to completion in some number of
    steps, leaving the rest of the stack untouched, extending the sizes
    map monotonically, keeping it good, and recording the reference
    subtree size for every node of `p`'s subtree. -/
theorem calcRun_process (dirs : Snapshot) (start : Str) (rank : Str → Nat)
    (H : ∀ p, Reach dirs start p → ∀ d, alookup dirs p = some d →
      ∀ c ∈ d.children, rank c < rank p)
    (hpres : ∀ p, Reach dirs start p → (alookup dirs p).isSome) :
    ∀ n p, rank p ≤ n → Reach dirs start p →
      ∀ s, GoodSizes dirs start rank s →
      ∃ k s',
        (∀ q v, alookup s q = some v → alookup s' q = some v) ∧
        GoodSizes dirs start rank s' ∧
        (∀ q, Reach dirs p q → (alookup s' q).isSome) ∧
        ∀ f rest, calcRun dirs (k + f) (.Process p :: rest) s =
          calcRun dirs f rest s' := by
  intro n
  induction n using Nat.strong_induction_on with
  | _ n ih =>
    intro p hpn hreach s hgood
    obtain ⟨d, hd⟩ := Option.isSome_iff_exists.mp (hpres p hreach)
    have hchild : ∀ c ∈ d.children, Reach dirs start c ∧ rank c < rank p :=
      fun c hc => ⟨Reach.tail hreach hd hc, H p hreach d hd c hc⟩
    have inner : ∀ (L : List Str), (∀ c ∈ L, c ∈ d.children) →
        ∀ s₀, GoodSizes dirs start rank s₀ →
        ∃ k s₁,
          (∀ q v, alookup s₀ q = some v → alookup s₁ q = some v) ∧
          GoodSizes dirs start rank s₁ ∧
          (∀ c ∈ L, ∀ q, Reach dirs c q → (alookup s₁ q).isSome) ∧
          ∀ f rest, calcRun dirs (k + f) (L.map StackItem.Process ++ rest) s₀ =
            calcRun dirs f rest s₁ := by
      intro L
      induction L with
      | nil =>
        intro _ s₀ hg₀
        exact ⟨0, s₀, fun q v h => h, hg₀,
          fun c hc => absurd hc (List.not_mem_nil c),
          fun f rest => by rw [Nat.zero_add]; rfl⟩
      | cons c L ihL =>
        intro hsub s₀ hg₀
        obtain ⟨hcr, hclt⟩ := hchild c (hsub c (List.mem_cons_self c L))
        obtain ⟨k₁, s₁, hmono₁, hg₁, hpres₁, heq₁⟩ :=
          ih (rank c) (by omega) c le_rfl hcr s₀ hg₀
        obtain ⟨k₂, s₂, hmono₂, hg₂, hpres₂, heq₂⟩ :=
          ihL (fun c' hc' => hsub c' (List.mem_cons_of_mem c hc')) s₁ hg₁
        refine ⟨k₁ + k₂, s₂, fun q v h => hmono₂ q v (hmono₁ q v h), hg₂, ?_, ?_⟩
        · intro c0 hc0 q hq
          rcases List.mem_cons.mp hc0 with h' | h'
          · subst h'
            obtain ⟨v, hv⟩ := Option.isSome_iff_exists.mp (hpres₁ q hq)
            rw [hmono₂ q v hv]
            rfl
          · exact hpres₂ c0 h' q hq
        · intro f rest
          rw [List.map_cons, List.cons_append,
            show k₁ + k₂ + f = k₁ + (k₂ + f) from by omega,
            heq₁ (k₂ + f) (L.map StackItem.Process ++ rest), heq₂ f rest]
    obtain ⟨kL, s₂, hmonoL, hgL, hpresL, heqL⟩ :=
      inner d.children.reverse (fun c hc => (List.mem_reverse).mp hc) s hgood
    have hvals : ∀ c ∈ d.children, alookup s₂ c = some (aggVal dirs rank c) := by
      intro c hc
      have hsom := hpresL c ((List.mem_reverse).mpr hc) c (Reach.refl c)
      obtain ⟨v, hv⟩ := Option.isSome_iff_exists.mp hsom
      rw [hv, ((hgL c v hv).2 : v = aggVal dirs rank c)]
    have hsum : childSum s₂ d.children =
        some ((d.children.map (aggVal dirs rank)).sum) :=
      childSum_eq s₂ d.children _ hvals
    have hagg : d.size + (d.children.map (aggVal dirs rank)).sum =
        aggVal dirs rank p :=
      (aggVal_eq dirs start rank H hpres p hreach d hd).symm
    set s₃ := supsert s₂ p (d.size + (d.children.map (aggVal dirs rank)).sum)
      with hs₃
    have hmono₃ : ∀ q v, alookup s₂ q = some v → alookup s₃ q = some v := by
      intro q v hv
      rw [hs₃, alookup_supsert]
      by_cases hpq : p = q
      · subst hpq
        rw [if_pos rfl, hagg, ((hgL p v hv).2 : v = aggVal dirs rank p)]
      · rw [if_neg hpq]
        exact hv
    have hg₃ : GoodSizes dirs start rank s₃ := by
      intro q v hv
      rw [hs₃, alookup_supsert] at hv
      by_cases hpq : p = q
      · subst hpq
        rw [if_pos rfl] at hv
        have hv' : d.size + (d.children.map (aggVal dirs rank)).sum = v :=
          Option.some_injective _ hv
        exact ⟨hreach, by rw [← hv', hagg]⟩
      · rw [if_neg hpq] at hv
        exact hgL q v hv
    have hpres₃ : ∀ q, Reach dirs p q → (alookup s₃ q).isSome := by
      intro q hq
      rcases Reach.cases_front dirs hq with h' | ⟨d0, c0, hd0, hc0, hr0⟩
      · subst h'
        rw [hs₃, alookup_supsert, if_pos rfl]
        rfl
      · have hdd : d0 = d := by
          rw [hd] at hd0
          exact (Option.some_injective _ hd0).symm
        subst hdd
        have hsom := hpresL c0 ((List.mem_reverse).mpr hc0) q hr0
        obtain ⟨v, hv⟩ := Option.isSome_iff_exists.mp hsom
        rw [hmono₃ q v hv]
        rfl
    refine ⟨1 + kL + 1, s₃, fun q v h => hmono₃ q v (hmonoL q v h), hg₃,
      hpres₃, ?_⟩
    intro f rest
    have hstep1 : calcRun dirs ((kL + (1 + f)) + 1) (.Process p :: rest) s =
        calcRun dirs (kL + (1 + f))
          ((d.children.map StackItem.Process).reverse ++ (.Calculate p :: rest)) s := by
      rw [calcRun]
      simp only [calcStep, hd]
    rw [show 1 + kL + 1 + f = (kL + (1 + f)) + 1 from by omega, hstep1,
      ← List.map_reverse, heqL (1 + f) (.Calculate p :: rest),
      Nat.add_comm 1 f, calcRun]
    simp only [calcStep, hd, hsum]

/-- C2 — Aggregation correctness: on every snapshot whose directories
    reachable from `start_path` form a tree (every listed child present,
    acyclicity witnessed by a rank function), `calc_size` completes with
    `Ok` at some fuel, mapping every reachable directory to its own
    `size` field plus the sum of the returned values of its children;
    in particular, on the synthetic tree root→{A, B} (A one file of 100,
    B one file of 50 and child C, C one file of 25) it returns
    root 175, A 100, B 75, C 25, and a directory with no files and no
    children is mapped to 0. -/
theorem calc_size_tree_correct (dirs : Snapshot) (start : Str)
    (rank : Str → Nat)
    (hpres : ∀ p, Reach dirs start p → (alookup dirs p).isSome)
    (hrank : ∀ p, Reach dirs start p → ∀ d, alookup dirs p = some d →
      ∀ c ∈ d.children, rank c < rank p) :
    (∃ fuel r, calc_size dirs start fuel = some (.ok r) ∧
      ∀ p, Reach dirs start p → ∀ d, alookup dirs p = some d →
        ∃ v, alookup r p = some v ∧
          (∀ c ∈ d.children, (alookup r c).isSome) ∧
          v = d.size + (d.children.map (fun c => (alookup r c).getD 0)).sum) ∧
    calc_size sampleTree (str "root") 20 =
      some (.ok [(str "c", 25), (str "b", 75), (str "a", 100), (str "root", 175)]) ∧
    calc_size emptyDirSnap (str "e") 10 = some (.ok [(str "e", 0)]) := by
  refine ⟨?_, by decide, by decide⟩
  obtain ⟨k, s', hmono, hg, hp', heq⟩ :=
    calcRun_process dirs start rank hrank hpres (rank start) start le_rfl
      (Reach.refl start) [] (fun q v h => by cases h)
  refine ⟨k + 1, s', ?_, ?_⟩
  · unfold calc_size
    rw [heq 1 []]
    rfl
  · intro p hp d hd
    obtain ⟨v, hv⟩ := Option.isSome_iff_exists.mp (hp' p hp)
    refine ⟨v, hv, ?_, ?_⟩
    · intro c hc
      exact hp' c (Reach.tail hp hd hc)
    · have hchild : ∀ c ∈ d.children,
          aggVal dirs rank c = (alookup s' c).getD 0 := by
        intro c hc
        obtain ⟨w, hw⟩ :=
          Option.isSome_iff_exists.mp (hp' c (Reach.tail hp hd hc))
        rw [hw]
        exact ((hg c w hw).2).symm
      rw [((hg p v hv).2 : v = aggVal dirs rank p),
        aggVal_eq dirs start rank hrank hpres p hp d hd]
      congr 1
      exact congrArg List.sum (List.map_congr_left hchild)

/-- Witness for C2: the theorem applied to the synthetic sample tree with
    an explicit rank function. -/
theorem calc_size_tree_correct_witness :
    (∃ fuel r, calc_size sampleTree (str "root") fuel = some (.ok r) ∧
      ∀ p, Reach sampleTree (str "root") p →
        ∀ d, alookup sampleTree p = some d →
        ∃ v, alookup r p = some v ∧
          (∀ c ∈ d.children, (alookup r c).isSome) ∧
          v = d.size + (d.children.map (fun c => (alookup r c).getD 0)).sum) ∧
    calc_size sampleTree (str "root") 20 =
      some (.ok [(str "c", 25), (str "b", 75), (str "a", 100), (str "root", 175)]) ∧
    calc_size emptyDirSnap (str "e") 10 = some (.ok [(str "e", 0)]) := by
  have hmem : ∀ q, Reach sampleTree (str "root") q →
      q ∈ [str "root", str "a", str "b", str "c"] := by
    refine reach_mem_of_closed sampleTree (str "root") _ (by decide) ?_
    intro p hp d hd c hcc
    fin_cases hp <;>
      (injection hd with h; subst h; fin_cases hcc <;> decide)
  refine calc_size_tree_correct sampleTree (str "root")
    (fun q => if q = str "root" then 2 else if q = str "b" then 1 else 0)
    ?_ ?_
  · intro p hp
    have := hmem p hp
    fin_cases this <;> decide
  · intro p hp d hd c hcc
    have := hmem p hp
    fin_cases this <;>
      (injection hd with h; subst h; fin_cases hcc <;> decide)

/-- If the aggregation loop completes successfully, every directory
    reachable from any `Process` item still on the stack is present in
    the snapshot. -/
theorem calcRun_ok_present (dirs : Snapshot) :
    ∀ (f : Nat) (st : List StackItem) (s : SizeMap) (r : SizeMap),
      calcRun dirs f st s = some (.ok r) →
      ∀ p, .Process p ∈ st → ∀ q, Reach dirs p q → (alookup dirs q).isSome := by
  intro f
  induction f with
  | zero =>
    intro st s r h
    cases h
  | succ f ih =>
    intro st s r h p hp q hq
    cases st with
    | nil => cases hp
    | cons it rest =>
      cases it with
      | Process p₀ =>
        cases hd : alookup dirs p₀ with
        | none =>
          rw [calcRun] at h
          simp only [calcStep, hd] at h
          simp at h
        | some d =>
          have hstep : calcRun dirs (f + 1) (.Process p₀ :: rest) s =
              calcRun dirs f
                ((d.children.map StackItem.Process).reverse ++
                  (.Calculate p₀ :: rest)) s := by
            rw [calcRun]
            simp only [calcStep, hd]
          rw [hstep] at h
          rcases List.mem_cons.mp hp with h' | h'
          · have hp0 : p = p₀ := by injection h'
            subst hp0
            rcases Reach.cases_front dirs hq with h'' | ⟨d0, c0, hd0, hc0, hr0⟩
            · subst h''
              rw [hd]
              rfl
            · have hdd : d0 = d := by
                rw [hd] at hd0
                exact (Option.some_injective _ hd0).symm
              subst hdd
              refine ih _ _ _ h c0 ?_ q hr0
              refine List.mem_append.mpr (Or.inl ?_)
              rw [← List.map_reverse]
              exact List.mem_map.mpr ⟨c0, List.mem_reverse.mpr hc0, rfl⟩
          · exact ih _ _ _ h p
              (List.mem_append.mpr (Or.inr (List.mem_cons_of_mem _ h'))) q hq
      | Calculate p₀ =>
        cases hd : alookup dirs p₀ with
        | none =>
          rw [calcRun] at h
          simp only [calcStep, hd] at h
          simp at h
        | some d =>
          cases hsum : childSum s d.children with
          | none =>
            rw [calcRun] at h
            simp only [calcStep, hd, hsum] at h
            simp at h
          | some v =>
            have hstep : calcRun dirs (f + 1) (.Calculate p₀ :: rest) s =
                calcRun dirs f rest (supsert s p₀ (d.size + v)) := by
              rw [calcRun]
              simp only [calcStep, hd, hsum]
            rw [hstep] at h
            rcases List.mem_cons.mp hp with h' | h'
            · cases h'
            · exact ih _ _ _ h p h' q hq

/-- C8 (amended) — Missing directory during aggregation: if `start_path`
    is not a key, `calc_size` returns the missing-directory error at once;
    and if some directory reachable from `start_path` lists a child that
    is not a key, `calc_size` never returns a successful mapping at any
    fuel — the missing path is never silently skipped (termination with
    an error is, however, not guaranteed when a reachable cycle is hit
    first). -/
theorem calc_size_missing_dir (dirs : Snapshot) (start : Str) :
    ((alookup dirs start = none) → ∀ f,
      calc_size dirs start (f + 1) = some (.error (.missingDir start))) ∧
    (∀ q, Reach dirs start q → alookup dirs q = none →
      ∀ f r, calc_size dirs start f ≠ some (.ok r)) := by
  constructor
  · intro h f
    unfold calc_size
    rw [calcRun]
    simp only [calcStep, h]
  · intro q hq hnone f r hok
    have hsom := calcRun_ok_present dirs f [.Process start] [] r hok start
      (List.mem_singleton.mpr rfl) q hq
    rw [hnone] at hsom
    cases hsom

/-- Witness for C8: a missing start errors immediately on the empty
    snapshot, and on the snapshot with a reachable dangling child the run
    at fuel 5 is not a success. -/
theorem calc_size_missing_dir_witness :
    calc_size [] (str "x") 1 = some (.error (.missingDir (str "x"))) ∧
    calc_size cycMissingSnap (str "a") 5 ≠ some (.ok []) :=
  ⟨(calc_size_missing_dir [] (str "x")).1 (by decide) 0,
   (calc_size_missing_dir cycMissingSnap (str "a")).2 (str "b")
     (@Reach.tail cycMissingSnap (str "a") (str "a") (str "b")
       ⟨0, [], [str "b", str "a"]⟩ (Reach.refl _) (by decide) (by decide))
     (by decide) 5 []⟩

/-- C8, the claim as stated, is false: on the snapshot whose only
    directory `a` lists the dangling child `b` and then itself, `b` is
    reachable and missing, yet `calc_size` never returns at all (no error,
    no result, at any fuel) because the cycle through `a` is entered
    before `b` is examined. -/
theorem calc_size_missing_dir_counterexample :
    alookup cycMissingSnap (str "a") = some ⟨0, [], [str "b", str "a"]⟩ ∧
    alookup cycMissingSnap (str "b") = none ∧
    Reach cycMissingSnap (str "a") (str "b") ∧
    ∀ f, calc_size cycMissingSnap (str "a") f = none := by
  refine ⟨by decide, by decide,
    @Reach.tail cycMissingSnap (str "a") (str "a") (str "b")
      ⟨0, [], [str "b", str "a"]⟩ (Reach.refl _) (by decide) (by decide), ?_⟩
  intro f
  exact calcRun_last_child_self cycMissingSnap (str "a")
    ⟨0, [], [str "b", str "a"]⟩ (by decide) (by decide) f [] []
